import Mathlib

/-!
Verification of the `Sidebar` component (src/components/Sidebar.tsx):
shallow embedding of its derived read models (tag counts, category counts,
sorted tag list, category universe) and of its event handlers (drop,
mode switch, add-category, bulk delete), with the component's local state
and outgoing callback invocations made explicit.
-/

namespace Sidebar

/-- A vault item, restricted to the two fields this component reads:
`tags` (a list of tag strings) and `category` (a string, `""` meaning
"no category"). -/
structure VaultItem where
  tags : List String
  category : String
deriving Repr, DecidableEq

/-- The uncategorized sentinel label used by the component. -/
def uncategorized : String := "未分类"

/-- JS `String.prototype.trim` on the character list: strip leading and
trailing whitespace. -/
def trimChars (l : List Char) : List Char :=
  ((l.dropWhile Char.isWhitespace).reverse.dropWhile Char.isWhitespace).reverse

/-- JS `String.prototype.trim`, embedded via the string's character list. -/
def jsTrim (s : String) : String :=
  ⟨trimChars s.data⟩

/-- Increment the count stored under key `k` in a JS-object-like record,
represented as an association list in key insertion order: the first entry
with key `k` is bumped, and a fresh key is appended at the end with count 1
(`acc[tag] = (acc[tag] || 0) + 1`). -/
def incr : List (String × Nat) → String → List (String × Nat)
  | [], k => [(k, 1)]
  | (k', v) :: rest, k =>
    if k' = k then (k', v + 1) :: rest else (k', v) :: incr rest k

/-- Read a key from a JS-object-like record (`acc[tag] || 0`): the value
stored under the first entry with that key, defaulting to 0. -/
def getCount : List (String × Nat) → String → Nat
  | [], _ => 0
  | (k', v) :: rest, k => if k' = k then v else getCount rest k

/-- Keys of a JS-object-like record, in insertion order (`Object.keys`). -/
def keysOf (l : List (String × Nat)) : List String :=
  l.map Prod.fst

/-- Sum of the values of a JS-object-like record. -/
def sumValues (l : List (String × Nat)) : Nat :=
  (l.map Prod.snd).sum

/-- Embedding of `tagCounts`: fold over all items, and over each item's tag list,
incrementing the tag's count once per occurrence. -/
def tagCounts (items : List VaultItem) : List (String × Nat) :=
  items.foldl (fun acc item => item.tags.foldl incr acc) []

/-- The category key an item is counted under: `item.category || '未分类'`. -/
def catKey (item : VaultItem) : String :=
  if item.category = "" then uncategorized else item.category

/-- Embedding of `categoryCounts`: fold over all items, incrementing the count of
`item.category || '未分类'`. -/
def categoryCounts (items : List VaultItem) : List (String × Nat) :=
  items.foldl (fun acc item => incr acc (catKey item)) []

/-- Embedding of `sortedTags`: `Object.keys(tagCounts).sort()`. -/
def sortedTags (items : List VaultItem) : List String :=
  List.insertionSort (fun a b => a ≤ b) (keysOf (tagCounts items))

/-- Embedding of `allCategories`: `Array.from(new Set([...existing, ...customCategories,
'未分类'])).sort()`. -/
def allCategories (items : List VaultItem) (customCategories : List String) :
    List String :=
  List.insertionSort (fun a b => a ≤ b)
    ((keysOf (categoryCounts items) ++ customCategories ++ [uncategorized]).dedup)

/-- The two view modes of the sidebar. -/
inductive Mode where
  | category
  | tag
deriving Repr, DecidableEq

/-- The component's local state (`useState` hooks). -/
structure SidebarState where
  mode : Mode
  isDragOver : Option String
  editingTag : Option String
  editValue : String
  newCategoryName : String
  customCategories : List String
deriving Repr, DecidableEq

/-- The initial local state of a freshly mounted component. -/
def initState : SidebarState :=
  { mode := .category
    isDragOver := none
    editingTag := none
    editValue := ""
    newCategoryName := ""
    customCategories := [] }

/-- An outgoing callback invocation (the component's props). -/
inductive Event where
  | selectTag (t : Option String)
  | selectCategory (c : Option String)
  | dropOnTag (itemId : String) (tag : String)
  | dropOnCategory (itemId : String) (cat : String)
  | renameTag (oldTag : String) (newTag : String)
  | deleteGroup (kind : Mode) (name : String)
deriving Repr, DecidableEq

/-- Embedding of `handleDrop`: reset the drag-over indicator, read the plain-text drag
payload, and when it is non-empty dispatch to `onDropOnTag` or
`onDropOnCategory` according to the active mode. -/
def handleDrop (s : SidebarState) (itemId : String) (target : String) :
    SidebarState × List Event :=
  let s' := { s with isDragOver := none }
  if itemId ≠ "" then
    match s.mode with
    | .tag => (s', [.dropOnTag itemId target])
    | .category => (s', [.dropOnCategory itemId target])
  else
    (s', [])

/-- Embedding of `handleDragOver`: set the drag-over indicator to the hovered target. -/
def handleDragOver (s : SidebarState) (target : Option String) :
    SidebarState × List Event :=
  ({ s with isDragOver := target }, [])

/-- Embedding of `onDragLeave`: clear the drag-over indicator. -/
def handleDragLeave (s : SidebarState) : SidebarState × List Event :=
  ({ s with isDragOver := none }, [])

/-- The category-mode tab's click handler:
`setMode('category'); onSelectTag(null)`. -/
def activateCategoryMode (s : SidebarState) : SidebarState × List Event :=
  ({ s with mode := .category }, [.selectTag none])

/-- The tag-mode tab's click handler:
`setMode('tag'); onSelectCategory(null)`. -/
def activateTagMode (s : SidebarState) : SidebarState × List Event :=
  ({ s with mode := .tag }, [.selectCategory none])

/-- The "show all" entry's click handler:
`onSelectTag(null); onSelectCategory(null)`. -/
def showAll (s : SidebarState) : SidebarState × List Event :=
  (s, [.selectTag none, .selectCategory none])

/-- A tag row's click handler: `onSelectTag(tag)`. -/
def clickTagRow (s : SidebarState) (tag : String) : SidebarState × List Event :=
  (s, [.selectTag (some tag)])

/-- A category row's click handler: `onSelectCategory(cat)`. -/
def clickCategoryRow (s : SidebarState) (cat : String) :
    SidebarState × List Event :=
  (s, [.selectCategory (some cat)])

/-- The new-category input's change handler: `setNewCategoryName(value)`. -/
def changeNewCategoryName (s : SidebarState) (value : String) :
    SidebarState × List Event :=
  ({ s with newCategoryName := value }, [])

/-- Embedding of `handleAddCategory`: if the trimmed input is non-blank, append it to the
custom-category list unless the category universe already contains it, and
clear the input; a blank input is left untouched. -/
def handleAddCategory (items : List VaultItem) (s : SidebarState) :
    SidebarState :=
  if jsTrim s.newCategoryName ≠ "" then
    let name := jsTrim s.newCategoryName
    if name ∈ allCategories items s.customCategories then
      { s with newCategoryName := "" }
    else
      { s with customCategories := s.customCategories ++ [name],
               newCategoryName := "" }
  else
    s

/-- Embedding of `handleBulkDelete`: the user's answer to the confirmation prompt decides
whether `onDeleteGroup(mode, name)` fires. -/
def handleBulkDelete (s : SidebarState) (confirmed : Bool) (name : String) :
    SidebarState × List Event :=
  if confirmed then (s, [.deleteGroup s.mode name]) else (s, [])

/-- Every user gesture the rendered component handles. -/
inductive Gesture where
  | switchToCategory
  | switchToTag
  | showAllClick
  | tagRowClick (tag : String)
  | categoryRowClick (cat : String)
  | dragOver (target : Option String)
  | dragLeave
  | drop (payload : String) (target : String)
  | typeNewCategoryName (value : String)
  | submitNewCategory
  | bulkDelete (confirmed : Bool) (name : String)
deriving Repr, DecidableEq

/-- Dispatch one user gesture against the current item list and local
state, yielding the next state and the callback invocations it caused. -/
def stepGesture (items : List VaultItem) (s : SidebarState) :
    Gesture → SidebarState × List Event
  | .switchToCategory => activateCategoryMode s
  | .switchToTag => activateTagMode s
  | .showAllClick => showAll s
  | .tagRowClick tag => clickTagRow s tag
  | .categoryRowClick cat => clickCategoryRow s cat
  | .dragOver target => handleDragOver s target
  | .dragLeave => handleDragLeave s
  | .drop payload target => handleDrop s payload target
  | .typeNewCategoryName value => changeNewCategoryName s value
  | .submitNewCategory => (handleAddCategory items s, [])
  | .bulkDelete confirmed name => handleBulkDelete s confirmed name

/-- Run a sequence of gestures, each against the item list current at that
step, accumulating all callback invocations in order. -/
def runGestures : List (List VaultItem × Gesture) → SidebarState →
    SidebarState × List Event
  | [], s => (s, [])
  | (items, g) :: rest, s =>
    let (s', evs) := stepGesture items s g
    let (s'', evs') := runGestures rest s'
    (s'', evs ++ evs')

/-- Recognizer for `onRenameTag` invocations. -/
def isRenameTag : Event → Bool
  | .renameTag _ _ => true
  | _ => false

/-- The category names actually observed on items (empty categories carry
no name). -/
def observedCategories (items : List VaultItem) : List String :=
  (items.map VaultItem.category).filter (fun c => c ≠ "")

/-- Invariant of the session-only custom-category list: no duplicates, and
every element is non-blank, its own trimmed form, and not the sentinel. -/
def CustomInv (s : SidebarState) : Prop :=
  s.customCategories.Nodup ∧
  ∀ x ∈ s.customCategories, x ≠ "" ∧ jsTrim x = x ∧ x ≠ uncategorized

/-! ### Helper lemmas about the JS-object-like records -/

theorem sumValues_incr (acc : List (String × Nat)) (k : String) :
    sumValues (incr acc k) = sumValues acc + 1 := by
  induction acc with
  | nil => simp [incr, sumValues]
  | cons p rest ih =>
    obtain ⟨k', v⟩ := p
    by_cases h : k' = k
    · simp [incr, h, sumValues]
      omega
    · simp only [incr, if_neg h, sumValues, List.map_cons, List.sum_cons] at *
      omega

theorem sumValues_foldl_incr (tags : List String) (acc : List (String × Nat)) :
    sumValues (tags.foldl incr acc) = sumValues acc + tags.length := by
  induction tags generalizing acc with
  | nil => simp
  | cons t ts ih =>
    simp only [List.foldl_cons, List.length_cons, ih, sumValues_incr]
    omega

theorem getCount_incr (acc : List (String × Nat)) (k t : String) :
    getCount (incr acc k) t = getCount acc t + (if k = t then 1 else 0) := by
  induction acc with
  | nil => simp [incr, getCount]
  | cons p rest ih =>
    obtain ⟨k', v⟩ := p
    by_cases h1 : k' = k
    · subst h1
      by_cases h2 : k' = t <;> simp [incr, getCount, h2]
    · by_cases h2 : k' = t
      · subst h2
        have hk : ¬ k = k' := fun hk => h1 hk.symm
        simp [incr, h1, getCount, hk]
      · simp [incr, h1, getCount, h2, ih]

theorem getCount_foldl_incr (tags : List String) (acc : List (String × Nat))
    (t : String) :
    getCount (tags.foldl incr acc) t = getCount acc t + tags.count t := by
  induction tags generalizing acc with
  | nil => simp
  | cons h hs ih =>
    simp only [List.foldl_cons, ih, getCount_incr, List.count_cons,
      beq_iff_eq]
    by_cases hht : h = t
    · simp [hht]
      omega
    · have : ¬ t = h := fun he => hht he.symm
      simp [hht, this]

theorem mem_keysOf_incr {acc : List (String × Nat)} {k x : String} :
    x ∈ keysOf (incr acc k) ↔ x ∈ keysOf acc ∨ x = k := by
  induction acc with
  | nil => simp [incr, keysOf]
  | cons p rest ih =>
    obtain ⟨k', v⟩ := p
    by_cases h : k' = k
    · subst h
      have he : incr ((k', v) :: rest) k' = (k', v + 1) :: rest := by
        simp [incr]
      rw [he]
      simp only [keysOf, List.map_cons, List.mem_cons]
      tauto
    · have he : incr ((k', v) :: rest) k = (k', v) :: incr rest k := by
        simp [incr, h]
      rw [he]
      simp only [keysOf, List.map_cons, List.mem_cons] at ih ⊢
      rw [ih]
      tauto

theorem sumValues_tagCounts_aux (items : List VaultItem)
    (acc : List (String × Nat)) :
    sumValues (items.foldl (fun a it => it.tags.foldl incr a) acc) =
      sumValues acc + (items.map (fun it => it.tags.length)).sum := by
  induction items generalizing acc with
  | nil => simp
  | cons it its ih =>
    simp only [List.foldl_cons, List.map_cons, List.sum_cons, ih,
      sumValues_foldl_incr]
    omega

theorem sumValues_categoryCounts_aux (items : List VaultItem)
    (acc : List (String × Nat)) :
    sumValues (items.foldl (fun a it => incr a (catKey it)) acc) =
      sumValues acc + items.length := by
  induction items generalizing acc with
  | nil => simp
  | cons it its ih =>
    simp only [List.foldl_cons, List.length_cons, ih, sumValues_incr]
    omega

theorem getCount_tagCounts_aux (items : List VaultItem)
    (acc : List (String × Nat)) (t : String) :
    getCount (items.foldl (fun a it => it.tags.foldl incr a) acc) t =
      getCount acc t + (items.map (fun it => it.tags.count t)).sum := by
  induction items generalizing acc with
  | nil => simp
  | cons it its ih =>
    simp only [List.foldl_cons, List.map_cons, List.sum_cons, ih,
      getCount_foldl_incr]
    omega

theorem getCount_categoryCounts_aux (items : List VaultItem)
    (acc : List (String × Nat)) (t : String) :
    getCount (items.foldl (fun a it => incr a (catKey it)) acc) t =
      getCount acc t + items.countP (fun it => catKey it == t) := by
  induction items generalizing acc with
  | nil => simp
  | cons it its ih =>
    simp only [List.foldl_cons, List.countP_cons, ih, getCount_incr,
      beq_iff_eq]
    by_cases h : catKey it = t
    · simp [h]
      omega
    · simp [h]

theorem mem_keysOf_foldl_incr {x : String} (items : List VaultItem)
    (acc : List (String × Nat)) (hx : x ∈ keysOf acc) :
    x ∈ keysOf (items.foldl (fun a it => incr a (catKey it)) acc) := by
  induction items generalizing acc with
  | nil => exact hx
  | cons it its ih =>
    exact ih _ (mem_keysOf_incr.mpr (Or.inl hx))

theorem catKey_mem_keysOf_categoryCounts {it : VaultItem}
    (items : List VaultItem) (hit : it ∈ items) :
    catKey it ∈ keysOf (categoryCounts items) := by
  unfold categoryCounts
  generalize ([] : List (String × Nat)) = acc
  induction items generalizing acc with
  | nil => cases hit
  | cons j js ih =>
    rcases List.mem_cons.mp hit with h | h
    · subst h
      exact mem_keysOf_foldl_incr js _ (mem_keysOf_incr.mpr (Or.inr rfl))
    · exact ih h _

theorem mem_allCategories {items : List VaultItem} {custom : List String}
    {x : String} :
    x ∈ allCategories items custom ↔
      x ∈ keysOf (categoryCounts items) ∨ x ∈ custom ∨ x = uncategorized := by
  unfold allCategories
  rw [List.mem_insertionSort, List.mem_dedup]
  simp

theorem head_of_dropWhile_false {α : Type _} (p : α → Bool) :
    ∀ (l : List α) (b : α) (bs : List α), l.dropWhile p = b :: bs →
      p b = false := by
  intro l
  induction l with
  | nil =>
    intro b bs h
    simp [List.dropWhile] at h
  | cons a t ih =>
    intro b bs h
    rw [List.dropWhile_cons] at h
    cases hpa : p a
    · rw [hpa] at h
      simp at h
      rw [← h.1]
      exact hpa
    · rw [hpa] at h
      simp at h
      exact ih b bs h

theorem dropWhile_trimChars (l : List Char) :
    (trimChars l).dropWhile Char.isWhitespace = trimChars l := by
  cases hBc : trimChars l with
  | nil => simp
  | cons b bs =>
    have hpre : trimChars l <+: l.dropWhile Char.isWhitespace :=
      List.rdropWhile_prefix Char.isWhitespace (l.dropWhile Char.isWhitespace)
    rw [hBc] at hpre
    obtain ⟨t, ht⟩ := hpre
    have hpb : Char.isWhitespace b = false :=
      head_of_dropWhile_false Char.isWhitespace l b (bs ++ t) ht.symm
    rw [List.dropWhile_cons, hpb]
    simp

theorem trimChars_idem (l : List Char) :
    trimChars (trimChars l) = trimChars l := by
  have h1 := dropWhile_trimChars l
  show (((trimChars l).dropWhile Char.isWhitespace).reverse.dropWhile
      Char.isWhitespace).reverse = trimChars l
  rw [h1]
  show List.rdropWhile Char.isWhitespace
      (List.rdropWhile Char.isWhitespace
        (l.dropWhile Char.isWhitespace)) = trimChars l
  rw [List.rdropWhile_idempotent]
  rfl

theorem jsTrim_idem (s : String) : jsTrim (jsTrim s) = jsTrim s :=
  congrArg String.mk (trimChars_idem s.data)

/-! ### Claim theorems -/

/-- C1: for every input item list, the values of the tag-count map sum to
the total number of (item, tag) membership pairs, the values of the
category-count map sum to the length of the item list, and the sentinel
bucket counts exactly the items whose category is empty or literally the
sentinel (so every item with an empty category is counted under '未分类'). -/
theorem tag_and_category_count_sums (items : List VaultItem) :
    sumValues (tagCounts items) = (items.map (fun it => it.tags.length)).sum ∧
    sumValues (categoryCounts items) = items.length ∧
    getCount (categoryCounts items) uncategorized =
      items.countP (fun it => it.category == "" || it.category == uncategorized) := by
  refine ⟨?_, ?_, ?_⟩
  · simpa [sumValues] using sumValues_tagCounts_aux items []
  · simpa [sumValues] using sumValues_categoryCounts_aux items []
  · have h := getCount_categoryCounts_aux items [] uncategorized
    simp only [getCount] at h
    rw [categoryCounts] at *
    rw [h, Nat.zero_add]
    apply List.countP_congr
    intro it _
    by_cases hc : it.category = "" <;> simp [catKey, hc]

/-- C2: for every item list and custom-category list, the category universe
contains the sentinel '未分类', is sorted ascending, and has no duplicates;
the derived tag list is sorted ascending. -/
theorem category_universe_and_tag_order (items : List VaultItem)
    (custom : List String) :
    uncategorized ∈ allCategories items custom ∧
    (allCategories items custom).Sorted (fun a b => a ≤ b) ∧
    (allCategories items custom).Nodup ∧
    (sortedTags items).Sorted (fun a b => a ≤ b) := by
  refine ⟨?_, ?_, ?_, ?_⟩
  · exact mem_allCategories.mpr (Or.inr (Or.inr rfl))
  · exact List.sorted_insertionSort _ _
  · exact ((List.perm_insertionSort _ _).nodup_iff).mpr (List.nodup_dedup _)
  · exact List.sorted_insertionSort _ _

/-- C10: tag counting is per occurrence: the count stored for a tag equals
the sum over items of the number of occurrences of that tag in the item's
tag list, so an item listing the same tag k times contributes k. -/
theorem tag_count_per_occurrence (items : List VaultItem) (t : String) :
    getCount (tagCounts items) t =
      (items.map (fun it => it.tags.count t)).sum := by
  simpa [getCount] using getCount_tagCounts_aux items [] t

/-- C4: activating 'category' mode sets the view mode to category and emits
exactly select-tag(none); activating 'tag' mode sets the view mode to tag
and emits exactly select-category(none), for every prior state. -/
theorem mode_switch_clears_other_selection (s : SidebarState) :
    (activateCategoryMode s).1.mode = Mode.category ∧
    (activateCategoryMode s).2 = [Event.selectTag none] ∧
    (activateTagMode s).1.mode = Mode.tag ∧
    (activateTagMode s).2 = [Event.selectCategory none] :=
  ⟨rfl, rfl, rfl, rfl⟩

/-- C7: with the prompt confirmed, bulk delete emits delete-group exactly
once, with the active mode and the row name; with the prompt declined it
emits nothing. -/
theorem bulk_delete_confirmation (s : SidebarState) (name : String) :
    (handleBulkDelete s true name).2 = [Event.deleteGroup s.mode name] ∧
    ((handleBulkDelete s true name).2.count (Event.deleteGroup s.mode name)) = 1 ∧
    (handleBulkDelete s false name).2 = [] := by
  refine ⟨rfl, ?_, rfl⟩
  simp [handleBulkDelete]

/-- C3: on a drop carrying a non-empty item id, tag mode emits exactly
drop-on-tag(itemId, rowName) and category mode emits exactly
drop-on-category(itemId, rowName); an empty id emits nothing; in every
case the drag-over indicator is reset to none. -/
theorem handleDrop_dispatch (s : SidebarState) (itemId target : String) :
    (handleDrop s itemId target).1.isDragOver = none ∧
    (itemId ≠ "" → s.mode = Mode.tag →
      (handleDrop s itemId target).2 = [Event.dropOnTag itemId target]) ∧
    (itemId ≠ "" → s.mode = Mode.category →
      (handleDrop s itemId target).2 = [Event.dropOnCategory itemId target]) ∧
    (itemId = "" → (handleDrop s itemId target).2 = []) := by
  unfold handleDrop
  by_cases h : itemId = ""
  · simp [h]
  · cases hm : s.mode <;> simp [h, hm]

/-- Witness for C3 at a concrete drop in tag mode. -/
theorem handleDrop_dispatch_witness :
    (handleDrop { initState with mode := Mode.tag } "item-42" "work").2 =
      [Event.dropOnTag ("item-42") "work"] :=
  (handleDrop_dispatch { initState with mode := Mode.tag } "item-42"
      "work").2.1 (by decide) rfl

/-- C5: submitting a non-blank trimmed name not yet in the category
universe appends the trimmed name to the custom-category list (making it
part of the universe) and clears the input; submitting a name whose
trimmed form already is a category (exact, case-sensitive match) leaves
the custom-category list unchanged and clears the input. -/
theorem add_category_new_and_duplicate (items : List VaultItem)
    (s : SidebarState) (h : jsTrim s.newCategoryName ≠ "") :
    (jsTrim s.newCategoryName ∉ allCategories items s.customCategories →
      (handleAddCategory items s).customCategories =
        s.customCategories ++ [jsTrim s.newCategoryName] ∧
      (handleAddCategory items s).newCategoryName = "" ∧
      jsTrim s.newCategoryName ∈
        allCategories items (handleAddCategory items s).customCategories) ∧
    (jsTrim s.newCategoryName ∈ allCategories items s.customCategories →
      (handleAddCategory items s).customCategories = s.customCategories ∧
      (handleAddCategory items s).newCategoryName = "") := by
  constructor
  · intro hnot
    have hred : handleAddCategory items s =
        { s with
            customCategories :=
              s.customCategories ++ [jsTrim s.newCategoryName],
            newCategoryName := "" } := by
      unfold handleAddCategory
      simp [h, hnot]
    rw [hred]
    refine ⟨rfl, rfl, ?_⟩
    exact mem_allCategories.mpr (Or.inr (Or.inl (by simp)))
  · intro hin
    unfold handleAddCategory
    simp [h, hin]

/-- Witness for C5: the fresh name " Work " is trimmed, appended, and the
input cleared. -/
theorem add_category_new_and_duplicate_witness :
    (handleAddCategory [] { initState with newCategoryName := " Work " }).customCategories
      = ["Work"] := by
  have h := (add_category_new_and_duplicate []
      { initState with newCategoryName := " Work " } (by decide)).1 (by decide)
  simpa using h.1

/-- C6 counterexample: submitting the whitespace-only name "  " does NOT
clear the input field — the input still holds "  " afterwards, contrary to
the claim that the input is cleared. -/
theorem blank_submission_input_not_cleared :
    (handleAddCategory [] { initState with newCategoryName := "  " }).newCategoryName
      ≠ "" := by decide

/-- C6 amended: submitting a name that is blank after trimming leaves the
whole component state unchanged — the category universe and custom list
are untouched and the input field keeps its text (it is not cleared). -/
theorem blank_submission_is_noop (items : List VaultItem) (s : SidebarState)
    (h : jsTrim s.newCategoryName = "") :
    handleAddCategory items s = s := by
  unfold handleAddCategory
  simp [h]

/-- Witness for the amended C6 at the whitespace-only input "  ". -/
theorem blank_submission_is_noop_witness :
    handleAddCategory [] { initState with newCategoryName := "  " } =
      { initState with newCategoryName := "  " } :=
  blank_submission_is_noop [] { initState with newCategoryName := "  " }
    (by decide)

/-- C8: no gesture ever emits a rename-tag invocation, so over every
sequence of handled gestures (each against its own item-list snapshot) the
number of rename-tag invocations is zero. -/
theorem rename_tag_never_invoked (trace : List (List VaultItem × Gesture))
    (s : SidebarState) :
    ((runGestures trace s).2.countP (fun e => isRenameTag e)) = 0 := by
  induction trace generalizing s with
  | nil => simp [runGestures]
  | cons p rest ih =>
    obtain ⟨items, g⟩ := p
    have hstep :
        ((stepGesture items s g).2.countP (fun e => isRenameTag e)) = 0 := by
      cases g
      case drop payload target =>
        unfold stepGesture handleDrop
        by_cases hpay : payload = ""
        · simp [hpay]
        · cases hm : s.mode <;> simp [hpay, hm, isRenameTag]
      case bulkDelete confirmed name =>
        cases confirmed <;>
          simp [stepGesture, handleBulkDelete, isRenameTag]
      all_goals
        simp [stepGesture, activateCategoryMode, activateTagMode,
          showAll, clickTagRow, clickCategoryRow, handleDragOver,
          handleDragLeave, changeNewCategoryName, isRenameTag]
    simp only [runGestures, List.countP_append]
    rw [hstep, ih]

theorem customInv_of_eq {s t : SidebarState}
    (h : t.customCategories = s.customCategories) (hs : CustomInv s) :
    CustomInv t := by
  unfold CustomInv at *
  rw [h]
  exact hs

theorem customCategories_handleAddCategory (items : List VaultItem)
    (s : SidebarState) :
    (handleAddCategory items s).customCategories = s.customCategories ∨
    ((handleAddCategory items s).customCategories =
        s.customCategories ++ [jsTrim s.newCategoryName] ∧
      jsTrim s.newCategoryName ≠ "" ∧
      jsTrim s.newCategoryName ∉ allCategories items s.customCategories) := by
  unfold handleAddCategory
  by_cases h : jsTrim s.newCategoryName = ""
  · simp [h]
  · by_cases hin :
        jsTrim s.newCategoryName ∈ allCategories items s.customCategories
    · simp [h, hin]
    · right
      exact ⟨by simp [h, hin], h, hin⟩

theorem not_observed_of_not_mem_allCategories {items : List VaultItem}
    {custom : List String} {n : String}
    (h : n ∉ allCategories items custom) : n ∉ observedCategories items := by
  intro hobs
  apply h
  apply mem_allCategories.mpr
  left
  unfold observedCategories at hobs
  simp only [List.mem_filter, List.mem_map, decide_eq_true_eq] at hobs
  obtain ⟨⟨it, hit, hcat⟩, hne⟩ := hobs
  have hkey : catKey it = n := by
    unfold catKey
    rw [hcat, if_neg hne]
  rw [← hkey]
  exact catKey_mem_keysOf_categoryCounts items hit

/-- C9: the session-only custom-category list starts empty, and every
gesture preserves its invariant: elements are non-blank, fixed by
trimming, pairwise distinct, and distinct from the sentinel; moreover the
list only ever grows by one name at a time, and that name is distinct from
the sentinel, from every existing custom category, and from every category
name observed in the items current at that submission. -/
theorem custom_categories_invariant :
    initState.customCategories = [] ∧
    ∀ (items : List VaultItem) (s : SidebarState) (g : Gesture),
      CustomInv s →
      CustomInv (stepGesture items s g).1 ∧
      ((stepGesture items s g).1.customCategories = s.customCategories ∨
        ∃ n, (stepGesture items s g).1.customCategories =
              s.customCategories ++ [n] ∧
          n ∉ s.customCategories ∧ n ≠ "" ∧ jsTrim n = n ∧
          n ≠ uncategorized ∧ n ∉ observedCategories items) := by
  refine ⟨rfl, ?_⟩
  intro items s g hInv
  cases g with
  | submitNewCategory =>
    show CustomInv (handleAddCategory items s) ∧
      ((handleAddCategory items s).customCategories = s.customCategories ∨ _)
    rcases customCategories_handleAddCategory items s with
      hsame | ⟨happ, hne, hnotin⟩
    · exact ⟨customInv_of_eq hsame hInv, Or.inl hsame⟩
    · have hnobs := not_observed_of_not_mem_allCategories hnotin
      have hnin : jsTrim s.newCategoryName ∉ s.customCategories := fun hmem =>
        hnotin (mem_allCategories.mpr (Or.inr (Or.inl hmem)))
      have hnun : jsTrim s.newCategoryName ≠ uncategorized := fun he =>
        hnotin (mem_allCategories.mpr (Or.inr (Or.inr he)))
      constructor
      · constructor
        · rw [happ, List.nodup_append]
          refine ⟨hInv.1, by simp, ?_⟩
          intro a ha hb
          rw [List.mem_singleton] at hb
          subst hb
          exact hnin ha
        · intro x hx
          rw [happ] at hx
          rcases List.mem_append.mp hx with hxl | hxr
          · exact hInv.2 x hxl
          · rw [List.mem_singleton] at hxr
            subst hxr
            exact ⟨hne, jsTrim_idem _, hnun⟩
      · exact Or.inr ⟨jsTrim s.newCategoryName, happ, hnin, hne,
          jsTrim_idem _, hnun, hnobs⟩
  | drop payload target =>
    have hdrop : (handleDrop s payload target).1 =
        { s with isDragOver := none } := by
      unfold handleDrop
      by_cases h : payload = ""
      · simp [h]
      · cases s.mode <;> simp [h]
    have hcc : (stepGesture items s (Gesture.drop payload target)).1.customCategories
        = s.customCategories := by
      show (handleDrop s payload target).1.customCategories = s.customCategories
      rw [hdrop]
    exact ⟨customInv_of_eq hcc hInv, Or.inl hcc⟩
  | bulkDelete confirmed name =>
    have hbd : (handleBulkDelete s confirmed name).1 = s := by
      cases confirmed <;> simp [handleBulkDelete]
    have hcc : (stepGesture items s (Gesture.bulkDelete confirmed name)).1.customCategories
        = s.customCategories := by
      show (handleBulkDelete s confirmed name).1.customCategories = s.customCategories
      rw [hbd]
    exact ⟨customInv_of_eq hcc hInv, Or.inl hcc⟩
  | switchToCategory => exact ⟨hInv, Or.inl rfl⟩
  | switchToTag => exact ⟨hInv, Or.inl rfl⟩
  | showAllClick => exact ⟨hInv, Or.inl rfl⟩
  | tagRowClick tag => exact ⟨hInv, Or.inl rfl⟩
  | categoryRowClick cat => exact ⟨hInv, Or.inl rfl⟩
  | dragOver target => exact ⟨hInv, Or.inl rfl⟩
  | dragLeave => exact ⟨hInv, Or.inl rfl⟩
  | typeNewCategoryName value => exact ⟨hInv, Or.inl rfl⟩

/-- Witness for C9: a concrete submission of " Work " from a typed-in
state preserves the invariant and appends a conforming name. -/
theorem custom_categories_invariant_witness :
    CustomInv (stepGesture [] { initState with newCategoryName := " Work " }
      Gesture.submitNewCategory).1 ∧
    (stepGesture [] { initState with newCategoryName := " Work " }
      Gesture.submitNewCategory).1.customCategories = ["Work"] := by
  have h := custom_categories_invariant.2 []
    { initState with newCategoryName := " Work " }
    Gesture.submitNewCategory (by constructor <;> simp [initState])
  refine ⟨h.1, by simp [stepGesture, handleAddCategory]; rfl⟩

end Sidebar
